import Mathlib

/-!
# Verification of the ironsea_index contract set

Shallow embedding of the trait declarations of `src/lib.rs` of the
`ironsea_index` crate, together with the reference fixture (`MyPair`) from
the crate's doctest, and proofs of the contract-level properties.

Rust methods taking `&self` (and `&K` arguments) are embedded in two ways:

* their purely functional content, as a Lean function (e.g. `Record::key`
  becomes a field `key : R → K`);
* where a claim is about the *effect* of a call (mutation of the receiver
  or of the arguments), the call is embedded state-passingly: the call
  returns its result together with the post-call receiver and arguments.
  A shared borrow in Rust cannot mutate, so the post-call values equal the
  inputs; this is made explicit by the `...Call` definitions below.

`Vec<&R>` results are embedded as `List R` (values) in the contract
structures; the reference-into-retained-store nature of a Rust borrow is
modelled separately (for the ownership claim) as a position (`Fin n`) into
the retained backing list. Rust `i64` is embedded as `Int` (no arithmetic
is performed, so no overflow reduction is needed), Rust `String` ordering
as lexicographic ordering of the character list (Rust orders strings
lexicographically by bytes; all characters involved are ASCII).
-/

namespace IronseaIndex

/-- The `MyPair` struct of the crate doctest: `struct MyPair { a: i64, b: i64 }`. -/
structure MyPair where
  a : Int
  b : Int
deriving DecidableEq

/-- `impl Record<String> for MyPair { fn key(&self) -> String { format!("{}", self.a) } }`. -/
def MyPair.keyString (p : MyPair) : String := toString p.a

/-- `impl Record<i64> for MyPair { fn key(&self) -> i64 { self.a } }`. -/
def MyPair.keyInt (p : MyPair) : Int := p.a

/-- The residual (non-key) field of `MyPair` when keyed by `a`: the field `b`.
Fixture for the destructuring contracts (`RecordFields`). -/
def MyPair.fieldsInt (p : MyPair) : Int := p.b

/-- `pub trait Record<K> { fn key(&self) -> K; }` — an implementation of the
trait for a record type `R` and key type `K` is a key-extraction function. -/
structure Record (R K : Type) where
  key : R → K

/-- `pub trait RecordFields<F> { fn fields(&self) -> F; }`. -/
structure RecordFields (R F : Type) where
  fields : R → F

/-- Modelled from the spec: the `RecordBuild` capability is absent from
`src/lib.rs` (spec §4.3, third variant only): "given a key and a fields
value, reconstruct a record". -/
structure RecordBuild (R K F : Type) where
  build : K → F → R

/-- `pub trait Indexed<R, K>` — `find(&self, key: &K) -> Vec<&R>` and
`find_range(&self, start: &K, end: &K) -> Vec<&R>`; the implementer's own
state (`&self`) is captured in the closure, references in the result are
embedded as values. -/
structure Indexed (R K : Type) where
  find : K → List R
  find_range : K → K → List R

/-- Modelled from the spec: the `IndexedOwned` family is absent from
`src/lib.rs` (spec §4.4/§6): same operation signatures as `Indexed`, but the
query results are owned copies independent of any retained source. -/
structure IndexedOwned (R K : Type) where
  find : K → List R
  find_range : K → K → List R

/-- `pub trait IndexedDestructured<F, K>` — `find(&self, key: &K) -> Vec<&F>`
and `find_range(&self, start: &K, end: &K) -> Vec<(K, &F)>`. -/
structure IndexedDestructured (F K : Type) where
  find : K → List F
  find_range : K → K → List (K × F)

/-- Membership of a key in the query range of `find_range`: the doc comment
fixes "`start` is included" and leaves the end bound unresolved ("TBC for
`end`"), so the end-inclusivity is a per-implementer boolean choice between
the ranges `[start, end]` and `[start, end)`. -/
def inRange {K : Type} [LinearOrder K] (endIncl : Bool) (s e k : K) : Bool :=
  decide (s ≤ k) && (if endIncl then decide (k ≤ e) else decide (k < e))

/-- The contract of `Indexed` over a backing collection `records` with key
extraction `keyOf` (from the trait doc comments): `find` retrieves all
records matching the key, `find_range` all records in the key range, with
`start` included and the end-inclusivity an implementer's choice; result
order is unspecified by the contract, hence equality up to permutation. -/
structure Conforming {R K : Type} [LinearOrder K] (keyOf : R → K)
    (records : List R) (idx : Indexed R K) : Prop where
  find_spec : ∀ k, List.Perm (idx.find k)
    (records.filter (fun r => decide (keyOf r = k)))
  range_spec : ∃ endIncl : Bool, ∀ s e, List.Perm (idx.find_range s e)
    (records.filter (fun r => inRange endIncl s e (keyOf r)))

/-- The contract of `IndexedDestructured` over a backing collection
`records` destructured by `keyOf` / `fieldsOf`: `find` retrieves the fields
of all records matching the key, `find_range` the (key, fields) pairs of
all records in the key range. -/
structure ConformingD {R F K : Type} [LinearOrder K] (keyOf : R → K)
    (fieldsOf : R → F) (records : List R)
    (idx : IndexedDestructured F K) : Prop where
  find_spec : ∀ k, List.Perm (idx.find k)
    ((records.filter (fun r => decide (keyOf r = k))).map fieldsOf)
  range_spec : ∃ endIncl : Bool, ∀ s e, List.Perm (idx.find_range s e)
    ((records.filter (fun r => inRange endIncl s e (keyOf r))).map
      (fun r => (keyOf r, fieldsOf r)))

/-- Reference linear-scan implementer of `Indexed` (spec §9: optional
scaffolding for testing the contract), with a chosen end-inclusivity. -/
def linearIndex {R K : Type} [LinearOrder K] (keyOf : R → K)
    (records : List R) (endIncl : Bool) : Indexed R K where
  find k := records.filter (fun r => decide (keyOf r = k))
  find_range s e := records.filter (fun r => inRange endIncl s e (keyOf r))

/-- Reference linear-scan implementer of `IndexedDestructured`. -/
def linearDestructured {R F K : Type} [LinearOrder K] (keyOf : R → K)
    (fieldsOf : R → F) (records : List R) (endIncl : Bool) :
    IndexedDestructured F K where
  find k := (records.filter (fun r => decide (keyOf r = k))).map fieldsOf
  find_range s e := (records.filter (fun r => inRange endIncl s e (keyOf r))).map
    (fun r => (keyOf r, fieldsOf r))

/-- Reference linear-scan implementer of `IndexedOwned`: results are owned
record values, no position into any retained store appears in them. -/
def linearIndexedOwned {R K : Type} [LinearOrder K] (keyOf : R → K)
    (records : List R) (endIncl : Bool) : IndexedOwned R K where
  find k := records.filter (fun r => decide (keyOf r = k))
  find_range s e := records.filter (fun r => inRange endIncl s e (keyOf r))

/-- Implementer state of the borrowed-reference `Indexed` family: the source
collection is retained, and a Rust `&R` into it is modelled as a position. -/
structure LinearIndexedRef (R K : Type) where
  source : List R

/-- `Indexed::find` of the borrowed-reference implementer: the result is a
list of references (positions) into the retained source collection. -/
def LinearIndexedRef.findRef {R K : Type} [DecidableEq K] (keyOf : R → K)
    (idx : LinearIndexedRef R K) (k : K) : List (Fin idx.source.length) :=
  (List.finRange idx.source.length).filter
    (fun i => decide (keyOf (idx.source.get i) = k))

/-- Implementer state of the `IndexedDestructured` family: key/field pairs
are retained (the original records can be freed), and a Rust `&F` is
modelled as a position into the retained pair list. -/
structure LinearDestructuredRef (K F : Type) where
  pairs : List (K × F)

/-- `IndexedDestructured::find` of the destructuring implementer: references
(positions) to field values inside the retained pairs, without keys. -/
def LinearDestructuredRef.findRef {K F : Type} [DecidableEq K]
    (idx : LinearDestructuredRef K F) (k : K) : List (Fin idx.pairs.length) :=
  (List.finRange idx.pairs.length).filter
    (fun i => decide ((idx.pairs.get i).1 = k))

/-- `IndexedDestructured::find_range` of the destructuring implementer: each
match is the matched key paired with a reference to the field value. -/
def LinearDestructuredRef.findRangeRef {K F : Type} [LinearOrder K]
    (endIncl : Bool) (idx : LinearDestructuredRef K F) (s e : K) :
    List (K × Fin idx.pairs.length) :=
  ((List.finRange idx.pairs.length).filter
    (fun i => inRange endIncl s e (idx.pairs.get i).1)).map
    (fun i => ((idx.pairs.get i).1, i))

/-- The doctest table:
`vec![MyPair{a:10,b:34}, MyPair{a:1,b:56}, MyPair{a:2,b:23}]`. -/
def table : List MyPair := [⟨10, 34⟩, ⟨1, 56⟩, ⟨2, 23⟩]

/-- The `Record<String>` implementation for `MyPair`, as a trait value. -/
def recordMyPairString : Record MyPair String := ⟨MyPair.keyString⟩

/-- The `Record<i64>` implementation for `MyPair`, as a trait value. -/
def recordMyPairInt : Record MyPair Int := ⟨MyPair.keyInt⟩

/-- A `RecordBuild` implementation for `MyPair` keyed by `a` with residual
field `b`: reconstruct the pair from the key and the field. -/
def buildMyPair : RecordBuild MyPair Int Int := ⟨fun k f => ⟨k, f⟩⟩

/-- State-passing embedding of a call to `Record::key(&self)`: the call
yields the key together with the post-call record; `&self` is a shared
borrow, so the record after the call is the record before it. -/
def Record.call {R K : Type} (inst : Record R K) (r : R) : K × R :=
  (inst.key r, r)

/-- State-passing embedding of `Indexed::find(&self, key: &K)`: result,
post-call index state, post-call key argument. -/
def Indexed.findCall {R K : Type} (idx : Indexed R K) (k : K) :
    List R × Indexed R K × K :=
  (idx.find k, idx, k)

/-- State-passing embedding of `Indexed::find_range(&self, start: &K, end: &K)`. -/
def Indexed.findRangeCall {R K : Type} (idx : Indexed R K) (s e : K) :
    List R × Indexed R K × K × K :=
  (idx.find_range s e, idx, s, e)

/-- State-passing embedding of `IndexedDestructured::find`. -/
def IndexedDestructured.findCall {F K : Type} (idx : IndexedDestructured F K)
    (k : K) : List F × IndexedDestructured F K × K :=
  (idx.find k, idx, k)

/-- State-passing embedding of `IndexedDestructured::find_range`. -/
def IndexedDestructured.findRangeCall {F K : Type}
    (idx : IndexedDestructured F K) (s e : K) :
    List (K × F) × IndexedDestructured F K × K × K :=
  (idx.find_range s e, idx, s, e)

/-- Lexicographic order on character lists: the embedding of Rust's `Ord`
for `String` (lexicographic on bytes; all doctest keys are ASCII). -/
def lexLt : List Char → List Char → Bool
  | [], [] => false
  | [], _ :: _ => true
  | _ :: _, [] => false
  | a :: as, b :: bs => if a < b then true else if a = b then lexLt as bs else false

/-- Insertion of an element into a list sorted by `le`. -/
def insertBy {α : Type} (le : α → α → Bool) (x : α) : List α → List α
  | [] => [x]
  | y :: ys => if le x y then x :: y :: ys else y :: insertBy le x ys

/-- Comparison sort, ascending by `le`: the embedding of
`Vec::sort_unstable_by_key` (the doctest keys are pairwise distinct, so
stability is irrelevant and any comparison sort computes the same list). -/
def sortBy {α : Type} (le : α → α → Bool) (l : List α) : List α :=
  l.foldr (insertBy le) []

/-- `MyPair` comparison by the `Record<String>` key (`le` as the negation of
strict `lexLt` the other way round). -/
def strLeKey (x y : MyPair) : Bool :=
  !(lexLt (MyPair.keyString y).data (MyPair.keyString x).data)

/-- `MyPair` comparison by the `Record<i64>` key. -/
def intLeKey (x y : MyPair) : Bool :=
  decide (MyPair.keyInt x ≤ MyPair.keyInt y)

theorem linearIndex_conforming {R K : Type} [LinearOrder K] (keyOf : R → K)
    (records : List R) (endIncl : Bool) :
    Conforming keyOf records (linearIndex keyOf records endIncl) :=
  ⟨fun _ => List.Perm.refl _, endIncl, fun _ _ => List.Perm.refl _⟩

theorem linearDestructured_conforming {R F K : Type} [LinearOrder K]
    (keyOf : R → K) (fieldsOf : R → F) (records : List R) (endIncl : Bool) :
    ConformingD keyOf fieldsOf records
      (linearDestructured keyOf fieldsOf records endIncl) :=
  ⟨fun _ => List.Perm.refl _, endIncl, fun _ _ => List.Perm.refl _⟩

theorem inRange_iff {K : Type} [LinearOrder K] (c : Bool) (s e k : K) :
    inRange c s e k = true ↔ s ≤ k ∧ (if c then k ≤ e else k < e) := by
  cases c <;> simp [inRange]

theorem range_filter_nil {R K : Type} [LinearOrder K] (keyOf : R → K)
    (records : List R) (s e : K) (hse : e < s) (c : Bool) :
    records.filter (fun r => inRange c s e (keyOf r)) = [] := by
  refine List.filter_eq_nil_iff.mpr ?_
  intro a _ hcon
  rw [inRange_iff] at hcon
  obtain ⟨h1, h2⟩ := hcon
  cases c <;> simp only [Bool.false_eq_true, if_false, if_true] at h2
  · exact lt_asymm (lt_of_le_of_lt h1 h2) hse
  · exact absurd (le_trans h1 h2) (not_le.mpr hse)

/-- `C5`: Key extraction is pure and deterministic: for every `Record`
implementation and every record `r`, a call returns the record unchanged,
a repeated call on the unmodified record yields an equal key, and the two
`Record` implementations of the doctest `MyPair` extract the decimal
rendering of `a` (String key) and `a` itself (i64 key), without mutating
the pair. -/
theorem record_key_pure_deterministic {R K : Type} (inst : Record R K) (r : R) :
    (inst.call r).2 = r
    ∧ (inst.call ((inst.call r).2)).1 = (inst.call r).1
    ∧ (∀ p : MyPair, recordMyPairString.call p = (toString p.a, p))
    ∧ (∀ p : MyPair, recordMyPairInt.call p = (p.a, p)) :=
  ⟨rfl, rfl, fun _ => rfl, fun _ => rfl⟩

/-- `C9`: Queries are stateless: `find` and `find_range` take the index and
their key arguments by shared reference, so after any query call the index
state and the key arguments are unchanged, for both the `Indexed` and the
`IndexedDestructured` families. -/
theorem queries_stateless {R F K : Type} (idx : Indexed R K)
    (d : IndexedDestructured F K) (k s e : K) :
    (idx.findCall k).2.1 = idx ∧ (idx.findCall k).2.2 = k
    ∧ (idx.findRangeCall s e).2.1 = idx
    ∧ (idx.findRangeCall s e).2.2.1 = s ∧ (idx.findRangeCall s e).2.2.2 = e
    ∧ (d.findCall k).2.1 = d ∧ (d.findCall k).2.2 = k
    ∧ (d.findRangeCall s e).2.1 = d
    ∧ (d.findRangeCall s e).2.2.1 = s ∧ (d.findRangeCall s e).2.2.2 = e :=
  ⟨rfl, rfl, rfl, rfl, rfl, rfl, rfl, rfl, rfl, rfl⟩

/-- `C1`: For every index conforming to the `Indexed` (resp.
`IndexedDestructured`) contract and every key `k`, `find k` returns exactly
the records (resp. the fields of the records) whose extracted key equals
`k`, and when no record's key equals `k` it returns the empty collection —
the result is always a list, never an error. -/
theorem find_returns_exactly_matches {R F K : Type} [LinearOrder K]
    (keyOf : R → K) (fieldsOf : R → F) (records : List R)
    (idx : Indexed R K) (d : IndexedDestructured F K)
    (h : Conforming keyOf records idx)
    (hd : ConformingD keyOf fieldsOf records d) (k : K) :
    (∀ r, r ∈ idx.find k ↔ r ∈ records ∧ keyOf r = k)
    ∧ ((∀ r ∈ records, keyOf r ≠ k) → idx.find k = [])
    ∧ (∀ f, f ∈ d.find k ↔ ∃ r ∈ records, keyOf r = k ∧ fieldsOf r = f)
    ∧ ((∀ r ∈ records, keyOf r ≠ k) → d.find k = []) := by
  have hfil : (∀ r ∈ records, keyOf r ≠ k) →
      records.filter (fun r => decide (keyOf r = k)) = [] := by
    intro hno
    refine List.filter_eq_nil_iff.mpr ?_
    intro a ha
    simpa using hno a ha
  refine ⟨?_, ?_, ?_, ?_⟩
  · intro r
    rw [(h.find_spec k).mem_iff, List.mem_filter]
    simp
  · intro hno
    have hp := h.find_spec k
    rw [hfil hno] at hp
    exact hp.eq_nil
  · intro f
    rw [(hd.find_spec k).mem_iff, List.mem_map]
    constructor
    · rintro ⟨r, hr, rfl⟩
      have hm := List.mem_filter.mp hr
      exact ⟨r, hm.1, by simpa using hm.2, rfl⟩
    · rintro ⟨r, hr, hk, hf⟩
      exact ⟨r, List.mem_filter.mpr ⟨hr, by simpa using hk⟩, hf⟩
  · intro hno
    have hp := hd.find_spec k
    rw [hfil hno, List.map_nil] at hp
    exact hp.eq_nil

theorem find_returns_exactly_matches_witness :
    Conforming MyPair.keyInt table (linearIndex MyPair.keyInt table false)
    ∧ ConformingD MyPair.keyInt MyPair.fieldsInt table
        (linearDestructured MyPair.keyInt MyPair.fieldsInt table false)
    ∧ ((∀ r, r ∈ (linearIndex MyPair.keyInt table false).find 99 ↔
          r ∈ table ∧ MyPair.keyInt r = 99)
      ∧ ((∀ r ∈ table, MyPair.keyInt r ≠ 99) →
          (linearIndex MyPair.keyInt table false).find 99 = [])
      ∧ (∀ f, f ∈ (linearDestructured MyPair.keyInt MyPair.fieldsInt table
            false).find 99 ↔
          ∃ r ∈ table, MyPair.keyInt r = 99 ∧ MyPair.fieldsInt r = f)
      ∧ ((∀ r ∈ table, MyPair.keyInt r ≠ 99) →
          (linearDestructured MyPair.keyInt MyPair.fieldsInt table
            false).find 99 = [])) :=
  ⟨linearIndex_conforming MyPair.keyInt table false,
   linearDestructured_conforming MyPair.keyInt MyPair.fieldsInt table false,
   find_returns_exactly_matches MyPair.keyInt MyPair.fieldsInt table _ _
     (linearIndex_conforming MyPair.keyInt table false)
     (linearDestructured_conforming MyPair.keyInt MyPair.fieldsInt table false)
     99⟩

/-- `C2`: Every operation of the contract set is a total function over its
declared domain: key extraction, fields extraction, `find` and `find_range`
each produce a plain value of their declared result type (no `Result` or
`Option` appears in any signature), and a query with no match produces the
empty collection rather than a failure. -/
theorem operations_total_no_error {R F K : Type} [LinearOrder K]
    (keyOf : R → K) (fieldsOf : R → F) (records : List R)
    (inst : Record R K) (fi : RecordFields R F)
    (idx : Indexed R K) (d : IndexedDestructured F K)
    (h : Conforming keyOf records idx)
    (hd : ConformingD keyOf fieldsOf records d)
    (r : R) (k s e : K) :
    (∃ kv : K, inst.key r = kv)
    ∧ (∃ fv : F, fi.fields r = fv)
    ∧ (∃ res : List R, idx.find k = res)
    ∧ (∃ res : List R, idx.find_range s e = res)
    ∧ (∃ res : List F, d.find k = res)
    ∧ (∃ res : List (K × F), d.find_range s e = res)
    ∧ ((∀ a ∈ records, keyOf a ≠ k) → idx.find k = [] ∧ d.find k = []) := by
  have hfil : (∀ a ∈ records, keyOf a ≠ k) →
      records.filter (fun a => decide (keyOf a = k)) = [] := by
    intro hno
    refine List.filter_eq_nil_iff.mpr ?_
    intro a ha
    simpa using hno a ha
  refine ⟨⟨_, rfl⟩, ⟨_, rfl⟩, ⟨_, rfl⟩, ⟨_, rfl⟩, ⟨_, rfl⟩, ⟨_, rfl⟩, ?_⟩
  intro hno
  constructor
  · have hp := h.find_spec k
    rw [hfil hno] at hp
    exact hp.eq_nil
  · have hp := hd.find_spec k
    rw [hfil hno, List.map_nil] at hp
    exact hp.eq_nil

theorem operations_total_no_error_witness :
    Conforming MyPair.keyInt table (linearIndex MyPair.keyInt table true)
    ∧ ConformingD MyPair.keyInt MyPair.fieldsInt table
        (linearDestructured MyPair.keyInt MyPair.fieldsInt table true)
    ∧ ((∃ kv : Int, recordMyPairInt.key ⟨10, 34⟩ = kv)
      ∧ (∃ fv : Int, (RecordFields.mk MyPair.fieldsInt).fields ⟨10, 34⟩ = fv)
      ∧ (∃ res : List MyPair, (linearIndex MyPair.keyInt table true).find 99 = res)
      ∧ (∃ res : List MyPair,
          (linearIndex MyPair.keyInt table true).find_range 1 10 = res)
      ∧ (∃ res : List Int,
          (linearDestructured MyPair.keyInt MyPair.fieldsInt table true).find 99
            = res)
      ∧ (∃ res : List (Int × Int),
          (linearDestructured MyPair.keyInt MyPair.fieldsInt table
            true).find_range 1 10 = res)
      ∧ ((∀ a ∈ table, MyPair.keyInt a ≠ 99) →
          (linearIndex MyPair.keyInt table true).find 99 = []
          ∧ (linearDestructured MyPair.keyInt MyPair.fieldsInt table
              true).find 99 = [])) :=
  ⟨linearIndex_conforming MyPair.keyInt table true,
   linearDestructured_conforming MyPair.keyInt MyPair.fieldsInt table true,
   operations_total_no_error MyPair.keyInt MyPair.fieldsInt table
     recordMyPairInt (RecordFields.mk MyPair.fieldsInt) _ _
     (linearIndex_conforming MyPair.keyInt table true)
     (linearDestructured_conforming MyPair.keyInt MyPair.fieldsInt table true)
     ⟨10, 34⟩ 99 1 10⟩

/-- `C3`, counterexample to the claim as stated: a conforming index (the
linear scan with the exclusive-end choice, which the contract permits since
the end bound is left unresolved) queried with `start = end = 1` excludes
the record `(a:1, b:56)` even though its key equals `start`. -/
theorem find_range_start_excluded_cex :
    Conforming MyPair.keyInt table (linearIndex MyPair.keyInt table false)
    ∧ (⟨1, 56⟩ : MyPair) ∈ table
    ∧ MyPair.keyInt ⟨1, 56⟩ = 1
    ∧ (⟨1, 56⟩ : MyPair) ∉ (linearIndex MyPair.keyInt table false).find_range 1 1 :=
  ⟨linearIndex_conforming MyPair.keyInt table false, by decide, by decide,
   by decide⟩

/-- `C3` (amended): For every conforming index and every pair of keys with
`start < end`, `find_range start end` includes every record whose key
equals `start` (the start bound is inclusive); whether a record whose key
equals `end` is included is left unspecified by the contract (either
end-inclusivity choice satisfies it). -/
theorem find_range_start_inclusive {R F K : Type} [LinearOrder K]
    (keyOf : R → K) (fieldsOf : R → F) (records : List R)
    (idx : Indexed R K) (d : IndexedDestructured F K)
    (h : Conforming keyOf records idx)
    (hd : ConformingD keyOf fieldsOf records d)
    (s e : K) (hse : s < e) (r : R) (hr : r ∈ records) (hk : keyOf r = s) :
    r ∈ idx.find_range s e ∧ (keyOf r, fieldsOf r) ∈ d.find_range s e := by
  have hin : ∀ c : Bool, inRange c s e (keyOf r) = true := by
    intro c
    rw [inRange_iff, hk]
    refine ⟨le_refl s, ?_⟩
    cases c <;> simp only [Bool.false_eq_true, if_false, if_true]
    · exact hse
    · exact le_of_lt hse
  obtain ⟨b, hrange⟩ := h.range_spec
  obtain ⟨c, hrangeD⟩ := hd.range_spec
  constructor
  · rw [(hrange s e).mem_iff, List.mem_filter]
    exact ⟨hr, hin b⟩
  · rw [(hrangeD s e).mem_iff, List.mem_map]
    exact ⟨r, List.mem_filter.mpr ⟨hr, hin c⟩, rfl⟩

theorem find_range_start_inclusive_witness :
    Conforming MyPair.keyInt table (linearIndex MyPair.keyInt table false)
    ∧ ConformingD MyPair.keyInt MyPair.fieldsInt table
        (linearDestructured MyPair.keyInt MyPair.fieldsInt table false)
    ∧ (1 : Int) < 10
    ∧ (⟨1, 56⟩ : MyPair) ∈ table
    ∧ MyPair.keyInt ⟨1, 56⟩ = 1
    ∧ ((⟨1, 56⟩ : MyPair) ∈
          (linearIndex MyPair.keyInt table false).find_range 1 10
      ∧ (MyPair.keyInt ⟨1, 56⟩, MyPair.fieldsInt ⟨1, 56⟩) ∈
          (linearDestructured MyPair.keyInt MyPair.fieldsInt table
            false).find_range 1 10) :=
  ⟨linearIndex_conforming MyPair.keyInt table false,
   linearDestructured_conforming MyPair.keyInt MyPair.fieldsInt table false,
   by decide, by decide, by decide,
   find_range_start_inclusive MyPair.keyInt MyPair.fieldsInt table _ _
     (linearIndex_conforming MyPair.keyInt table false)
     (linearDestructured_conforming MyPair.keyInt MyPair.fieldsInt table false)
     1 10 (by decide) ⟨1, 56⟩ (by decide) (by decide)⟩

/-- `C4`: The contract set exposes three index capability families with
distinct result ownership: the borrowed-reference family returns positions
into the retained source collection, each dereferencing to a record whose
key matches; the owned family (`IndexedOwned`, modelled from the spec)
returns record values themselves; and the destructuring family returns
positions into the retained key/field pairs (for `find`), resp. keys paired
with such positions (for `find_range`). -/
theorem three_index_families {R F K : Type} [LinearOrder K] (keyOf : R → K)
    (src : List R) (pairs : List (K × F)) (endIncl : Bool) (k s e : K) :
    (∀ i ∈ (LinearIndexedRef.mk src : LinearIndexedRef R K).findRef keyOf k,
      keyOf (src.get i) = k)
    ∧ (∀ r ∈ (linearIndexedOwned keyOf src endIncl).find k,
        r ∈ src ∧ keyOf r = k)
    ∧ (∀ i ∈ (LinearDestructuredRef.mk pairs : LinearDestructuredRef K F).findRef k,
        (pairs.get i).1 = k)
    ∧ (∀ p ∈ (LinearDestructuredRef.mk pairs :
          LinearDestructuredRef K F).findRangeRef endIncl s e,
        (pairs.get p.2).1 = p.1 ∧ inRange endIncl s e p.1 = true) := by
  refine ⟨?_, ?_, ?_, ?_⟩
  · intro i hi
    have hm := List.mem_filter.mp hi
    simpa using hm.2
  · intro r hr
    have hm := List.mem_filter.mp hr
    exact ⟨hm.1, by simpa using hm.2⟩
  · intro i hi
    have hm := List.mem_filter.mp hi
    simpa using hm.2
  · intro p hp
    simp only [LinearDestructuredRef.findRangeRef, List.mem_map] at hp
    obtain ⟨i, hi, rfl⟩ := hp
    have hm := List.mem_filter.mp hi
    exact ⟨rfl, hm.2⟩

/-- `C6`: For a conforming destructuring index, every element returned by
`find_range` is a (key, fields) pair whose first component is the extracted
key of the matched record and whose second component is that record's
fields, whereas `find` returns field values only, each the fields of some
record matching the queried key (no key in the result). -/
theorem destructured_results_shape {R F K : Type} [LinearOrder K]
    (keyOf : R → K) (fieldsOf : R → F) (records : List R)
    (d : IndexedDestructured F K)
    (hd : ConformingD keyOf fieldsOf records d) :
    (∀ s e p, p ∈ d.find_range s e →
      ∃ r ∈ records, keyOf r = p.1 ∧ fieldsOf r = p.2)
    ∧ (∀ k f, f ∈ d.find k → ∃ r ∈ records, keyOf r = k ∧ fieldsOf r = f) := by
  obtain ⟨c, hrange⟩ := hd.range_spec
  constructor
  · intro s e p hp
    rw [(hrange s e).mem_iff, List.mem_map] at hp
    obtain ⟨r, hr, rfl⟩ := hp
    exact ⟨r, (List.mem_filter.mp hr).1, rfl, rfl⟩
  · intro k f hf
    rw [(hd.find_spec k).mem_iff, List.mem_map] at hf
    obtain ⟨r, hr, rfl⟩ := hf
    have hm := List.mem_filter.mp hr
    exact ⟨r, hm.1, by simpa using hm.2, rfl⟩

theorem destructured_results_shape_witness :
    ConformingD MyPair.keyInt MyPair.fieldsInt table
      (linearDestructured MyPair.keyInt MyPair.fieldsInt table true)
    ∧ ((∀ s e p, p ∈ (linearDestructured MyPair.keyInt MyPair.fieldsInt table
          true).find_range s e →
        ∃ r ∈ table, MyPair.keyInt r = p.1 ∧ MyPair.fieldsInt r = p.2)
      ∧ (∀ k f, f ∈ (linearDestructured MyPair.keyInt MyPair.fieldsInt table
          true).find k →
        ∃ r ∈ table, MyPair.keyInt r = k ∧ MyPair.fieldsInt r = f)) :=
  ⟨linearDestructured_conforming MyPair.keyInt MyPair.fieldsInt table true,
   destructured_results_shape MyPair.keyInt MyPair.fieldsInt table _
     (linearDestructured_conforming MyPair.keyInt MyPair.fieldsInt table true)⟩

/-- `C7`: For every conforming index and every pair of keys with
`start > end` under the key ordering, `find_range start end` returns the
empty collection (under either end-inclusivity choice the range is empty),
for both the `Indexed` and the `IndexedDestructured` families. -/
theorem find_range_inverted_empty {R F K : Type} [LinearOrder K]
    (keyOf : R → K) (fieldsOf : R → F) (records : List R)
    (idx : Indexed R K) (d : IndexedDestructured F K)
    (h : Conforming keyOf records idx)
    (hd : ConformingD keyOf fieldsOf records d)
    (s e : K) (hse : e < s) :
    idx.find_range s e = [] ∧ d.find_range s e = [] := by
  constructor
  · obtain ⟨b, hrange⟩ := h.range_spec
    have hp := hrange s e
    rw [range_filter_nil keyOf records s e hse b] at hp
    exact hp.eq_nil
  · obtain ⟨c, hrange⟩ := hd.range_spec
    have hp := hrange s e
    rw [range_filter_nil keyOf records s e hse c, List.map_nil] at hp
    exact hp.eq_nil

theorem find_range_inverted_empty_witness :
    Conforming MyPair.keyInt table (linearIndex MyPair.keyInt table true)
    ∧ ConformingD MyPair.keyInt MyPair.fieldsInt table
        (linearDestructured MyPair.keyInt MyPair.fieldsInt table true)
    ∧ (1 : Int) < 10
    ∧ ((linearIndex MyPair.keyInt table true).find_range 10 1 = []
      ∧ (linearDestructured MyPair.keyInt MyPair.fieldsInt table
          true).find_range 10 1 = []) :=
  ⟨linearIndex_conforming MyPair.keyInt table true,
   linearDestructured_conforming MyPair.keyInt MyPair.fieldsInt table true,
   by decide,
   find_range_inverted_empty MyPair.keyInt MyPair.fieldsInt table _ _
     (linearIndex_conforming MyPair.keyInt table true)
     (linearDestructured_conforming MyPair.keyInt MyPair.fieldsInt table true)
     10 1 (by decide)⟩

/-- `C8`: The `RecordBuild` capability (modelled from the spec) reconstructs
a record from a key and a fields value; for a destructuring implementer
whose build is the structural inverse of key extraction, re-extracting the
key from the record built from `key r` and `fields r` yields the same key
as `key r`, and the concrete `MyPair` implementer satisfies this round
trip. -/
theorem build_key_roundtrip {R K F : Type} (bld : RecordBuild R K F)
    (keyOf : R → K) (fieldsOf : R → F)
    (hinv : ∀ k f, keyOf (bld.build k f) = k) (r : R) :
    keyOf (bld.build (keyOf r) (fieldsOf r)) = keyOf r
    ∧ (∀ p : MyPair,
        MyPair.keyInt (buildMyPair.build (MyPair.keyInt p) (MyPair.fieldsInt p))
          = MyPair.keyInt p) :=
  ⟨hinv _ _, fun _ => rfl⟩

theorem build_key_roundtrip_witness :
    (∀ k f, MyPair.keyInt (buildMyPair.build k f) = k)
    ∧ (MyPair.keyInt
        (buildMyPair.build (MyPair.keyInt ⟨10, 34⟩) (MyPair.fieldsInt ⟨10, 34⟩))
          = MyPair.keyInt ⟨10, 34⟩
      ∧ (∀ p : MyPair,
          MyPair.keyInt (buildMyPair.build (MyPair.keyInt p) (MyPair.fieldsInt p))
            = MyPair.keyInt p)) :=
  ⟨fun _ _ => rfl,
   build_key_roundtrip buildMyPair MyPair.keyInt MyPair.fieldsInt
     (fun _ _ => rfl) ⟨10, 34⟩⟩

/-- `C10`: Sorting the doctest table by the `Record<String>` key yields the
lexicographic order a=1, a=10, a=2, while sorting it by the `Record<i64>`
key yields the numeric order a=1, a=2, a=10; the two key types induce
different orders on the same records. -/
theorem doctest_sort_orders :
    sortBy strLeKey table = [⟨1, 56⟩, ⟨10, 34⟩, ⟨2, 23⟩]
    ∧ sortBy intLeKey table = [⟨1, 56⟩, ⟨2, 23⟩, ⟨10, 34⟩]
    ∧ sortBy strLeKey table ≠ sortBy intLeKey table :=
  ⟨by decide, by decide, by decide⟩

end IronseaIndex
